import Mathlib

/-!
Verification of the graph sampling engine (`GraphSampler.py`).

The engine works over an undirected graph supplied by the caller
(a networkx graph in the source).  We embed it as a list of nodes
together with a list of edges; `neighbors` and `degree` are derived
exactly as the adjacency view of the edge list.  Node identifiers
are natural numbers.

Randomness is made explicit: `random.choice` becomes an index stream
`cs : Nat → Nat` (the t-th choice picks element `cs t % length` of the
list), `random.random` becomes a stream of rationals `us : Nat → ℚ`,
and `random.shuffle` becomes a function parameter that is assumed to
return a permutation of its input.  All theorems are quantified over
these parameters, hence hold for every possible random outcome.

The Python `while` loops are embedded with explicit fuel; every
property proved is an invariant, valid for every fuel value.
-/

/-- The input graph: a list of nodes and a list of undirected edges,
as handed to `GraphSampler.__init__`. -/
structure Graph where
  nodes : List Nat
  edges : List (Nat × Nat)
deriving DecidableEq

/-- The adjacency view of the edge list: `G.neighbors(n)` in the source.
An edge incident to `n` contributes its other endpoint. -/
def Graph.neighbors (g : Graph) (n : Nat) : List Nat :=
  g.edges.filterMap (fun e =>
    if e.1 = n then some e.2 else if e.2 = n then some e.1 else none)

/-- `G.degree(n)` in the source: the number of adjacency entries of `n`. -/
def Graph.degree (g : Graph) (n : Nat) : Nat :=
  (g.neighbors n).length

/-- One neighbor step: `v` occurs in the adjacency list of `u`. -/
def Graph.Adj (g : Graph) (u v : Nat) : Prop :=
  v ∈ g.neighbors u

/-- Reachability in the input graph along neighbor steps. -/
def Graph.Reaches (g : Graph) (u v : Nat) : Prop :=
  Relation.ReflTransGen g.Adj u v

/-- The sampled graph being built: in the source a fresh graph object
created empty and grown with `add_node` / `add_edge`. -/
structure SGraph where
  nodes : List Nat
  edges : List (Nat × Nat)
deriving DecidableEq

/-- The empty sampled graph. -/
def SGraph.empty : SGraph := ⟨[], []⟩

/-- `add_node`: a no-op when the node is already present. -/
def SGraph.addNode (sg : SGraph) (n : Nat) : SGraph :=
  if n ∈ sg.nodes then sg else ⟨sg.nodes ++ [n], sg.edges⟩

/-- Whether the undirected edge between `u` and `v` is already stored. -/
def SGraph.hasEdge (sg : SGraph) (u v : Nat) : Bool :=
  sg.edges.any (fun e => (e.1 = u && e.2 = v) || (e.1 = v && e.2 = u))

/-- `add_edge`: inserts both endpoints, then the edge unless present. -/
def SGraph.addEdge (sg : SGraph) (u v : Nat) : SGraph :=
  if ((sg.addNode u).addNode v).hasEdge u v then (sg.addNode u).addNode v
  else ⟨((sg.addNode u).addNode v).nodes, ((sg.addNode u).addNode v).edges ++ [(u, v)]⟩

/-- Undirected adjacency in the sampled graph. -/
def SGraph.Adj (sg : SGraph) (u v : Nat) : Prop :=
  (u, v) ∈ sg.edges ∨ (v, u) ∈ sg.edges

/-- Reachability inside the sampled graph. -/
def SGraph.Reach (sg : SGraph) (u v : Nat) : Prop :=
  Relation.ReflTransGen sg.Adj u v

/-- The sampled graph is connected: every two of its nodes are joined
by a path of its edges. -/
def SGraph.Connected (sg : SGraph) : Prop :=
  ∀ u ∈ sg.nodes, ∀ v ∈ sg.nodes, sg.Reach u v

/-- Error kinds of the engine (section 7 of the design). -/
inductive SampleError where
  | emptyPopulation
  | insufficientPopulation
deriving DecidableEq

/-! ## Metropolis-Hastings sampling -/

/-- The outcome of one iteration of the Metropolis-Hastings loop body. -/
inductive MHStep where
  | deadEnd
  | divByZero
  | step (cur : Nat) (sg : SGraph)
deriving DecidableEq

/-- The acceptance ratio `min(1, next_degree / current_degree)`; `none`
models the `ZeroDivisionError` a zero denominator would raise. -/
def acceptance_ratio (nextDeg curDeg : Nat) : Option ℚ :=
  if curDeg = 0 then none else some (min 1 ((nextDeg : ℚ) / (curDeg : ℚ)))

/-- The neighbor picked by `random.choice(neighbors)` for choice index `c`
(shared by the two walk-based algorithms). -/
def pickNeighbor (g : Graph) (cur : Nat) (c : Nat) : Nat :=
  (g.neighbors cur).getD (c % (g.neighbors cur).length) 0

/-- One iteration of the `metropolis_hastings_sampling` loop body:
dead-end check, neighbor choice, acceptance ratio, accept or reject. -/
def mhStep (g : Graph) (cur : Nat) (sg : SGraph) (c : Nat) (u : ℚ) : MHStep :=
  if (g.neighbors cur).isEmpty then .deadEnd
  else
    match acceptance_ratio (g.degree (pickNeighbor g cur c)) (g.degree cur) with
    | none => .divByZero
    | some ratio =>
      if u < ratio then
        .step (pickNeighbor g cur c) ((sg.addNode (pickNeighbor g cur c)).addEdge cur (pickNeighbor g cur c))
      else .step cur (sg.addNode cur)

/-- The `while sampled_graph.number_of_nodes() < num_samples` loop,
with explicit fuel; `none` models an uncaught division by zero. -/
def mhLoop (g : Graph) (ns : Nat) (cs : Nat → Nat) (us : Nat → ℚ) :
    Nat → Nat → SGraph → Nat → Option SGraph
  | 0, _, sg, _ => some sg
  | fuel + 1, cur, sg, t =>
    if sg.nodes.length < ns then
      match mhStep g cur sg (cs t) (us t) with
      | .deadEnd => some sg
      | .divByZero => none
      | .step cur1 sg1 => mhLoop g ns cs us fuel cur1 sg1 (t + 1)
    else some sg

/-- `metropolis_hastings_sampling(start_node, num_samples)`. -/
def metropolis_hastings_sampling (g : Graph) (start ns fuel : Nat)
    (cs : Nat → Nat) (us : Nat → ℚ) : Option SGraph :=
  mhLoop g ns cs us fuel start (SGraph.empty.addNode start) 0

/-- The 5-node path graph used as a concrete test scenario. -/
def P5 : Graph := ⟨[1, 2, 3, 4, 5], [(1, 2), (2, 3), (3, 4), (4, 5)]⟩

example : P5.neighbors 2 = [1, 3] := by decide
example : pickNeighbor P5 2 0 = 1 := by decide

/-! ## Basic lemmas about the sampled graph operations -/

theorem SGraph.mem_addNode_iff (sg : SGraph) (n m : Nat) :
    m ∈ (sg.addNode n).nodes ↔ m ∈ sg.nodes ∨ m = n := by
  unfold SGraph.addNode
  by_cases h : n ∈ sg.nodes <;> simp [h]
  intro hm
  rw [hm]
  exact h

theorem SGraph.addNode_eq_of_mem {sg : SGraph} {n : Nat} (h : n ∈ sg.nodes) :
    sg.addNode n = sg := by
  simp [SGraph.addNode, h]

theorem SGraph.addNode_edges (sg : SGraph) (n : Nat) :
    (sg.addNode n).edges = sg.edges := by
  unfold SGraph.addNode
  split <;> rfl

theorem SGraph.nodes_sub_addNode (sg : SGraph) (n : Nat) :
    sg.nodes ⊆ (sg.addNode n).nodes := by
  intro m hm
  exact (sg.mem_addNode_iff n m).mpr (Or.inl hm)

theorem SGraph.mem_addNode_self (sg : SGraph) (n : Nat) :
    n ∈ (sg.addNode n).nodes := by
  exact (sg.mem_addNode_iff n n).mpr (Or.inr rfl)

theorem SGraph.addEdge_nodes (sg : SGraph) (u v : Nat) :
    (sg.addEdge u v).nodes = ((sg.addNode u).addNode v).nodes := by
  unfold SGraph.addEdge
  split <;> rfl

theorem SGraph.edges_sub_addEdge (sg : SGraph) (u v : Nat) :
    sg.edges ⊆ (sg.addEdge u v).edges := by
  unfold SGraph.addEdge
  split
  · rw [SGraph.addNode_edges, SGraph.addNode_edges]
    exact fun e he => he
  · intro e he
    show e ∈ ((sg.addNode u).addNode v).edges ++ [(u, v)]
    rw [SGraph.addNode_edges, SGraph.addNode_edges]
    exact List.mem_append_left _ he

theorem SGraph.adj_addEdge (sg : SGraph) (u v : Nat) : (sg.addEdge u v).Adj u v := by
  unfold SGraph.addEdge
  split
  · rename_i h
    rw [SGraph.hasEdge, List.any_eq_true] at h
    obtain ⟨e, he, hcond⟩ := h
    simp only [Bool.or_eq_true, Bool.and_eq_true, decide_eq_true_eq] at hcond
    rcases hcond with ⟨h1, h2⟩ | ⟨h1, h2⟩
    · refine Or.inl ?_
      have he2 : e = (u, v) := Prod.ext h1 h2
      rwa [he2] at he
    · refine Or.inr ?_
      have he2 : e = (v, u) := Prod.ext h1 h2
      rwa [he2] at he
  · exact Or.inl (by simp)

theorem SGraph.adj_mono_edges {sg sg2 : SGraph} (h : sg.edges ⊆ sg2.edges) {u v : Nat}
    (ha : sg.Adj u v) : sg2.Adj u v := by
  rcases ha with h1 | h1
  · exact Or.inl (h h1)
  · exact Or.inr (h h1)

theorem SGraph.adj_swap {sg : SGraph} {u v : Nat} (h : sg.Adj u v) : sg.Adj v u :=
  Or.symm h

theorem SGraph.reach_mono_edges {sg sg2 : SGraph} (h : sg.edges ⊆ sg2.edges) {u v : Nat}
    (hr : sg.Reach u v) : sg2.Reach u v :=
  Relation.ReflTransGen.mono (fun _ _ hab => SGraph.adj_mono_edges h hab) hr

theorem SGraph.reach_swap {sg : SGraph} {u v : Nat} (h : sg.Reach u v) : sg.Reach v u :=
  Relation.ReflTransGen.symmetric (fun _ _ ha => SGraph.adj_swap ha) h

theorem SGraph.connected_addEdge {sg : SGraph} (h : sg.Connected) {a : Nat}
    (ha : a ∈ sg.nodes) (b : Nat) : ((sg.addNode b).addEdge a b).Connected := by
  intro u hu v hv
  have hedges : sg.edges ⊆ ((sg.addNode b).addEdge a b).edges := by
    rw [← SGraph.addNode_edges sg b]
    exact SGraph.edges_sub_addEdge _ a b
  have hmem : ∀ m, m ∈ ((sg.addNode b).addEdge a b).nodes → m ∈ sg.nodes ∨ m = b := by
    intro m hm
    rw [SGraph.addEdge_nodes, SGraph.mem_addNode_iff, SGraph.mem_addNode_iff,
      SGraph.mem_addNode_iff] at hm
    rcases hm with ((hm | hm) | hm) | hm
    · exact Or.inl hm
    · exact Or.inr hm
    · exact Or.inl (hm ▸ ha)
    · exact Or.inr hm
  have hadj : ((sg.addNode b).addEdge a b).Adj a b := SGraph.adj_addEdge _ a b
  have hreach_b : ((sg.addNode b).addEdge a b).Reach a b :=
    Relation.ReflTransGen.single hadj
  have key : ∀ m, m ∈ ((sg.addNode b).addEdge a b).nodes →
      ((sg.addNode b).addEdge a b).Reach m a := by
    intro m hm
    rcases hmem m hm with hm1 | hm1
    · exact SGraph.reach_mono_edges hedges (h m hm1 a ha)
    · rw [hm1]
      exact SGraph.reach_swap hreach_b
  exact (key u hu).trans (SGraph.reach_swap (key v hv))

/-! ## Metropolis-Hastings: safety and connectivity invariants -/

theorem acceptance_ratio_eq (nextDeg curDeg : Nat) (h : curDeg ≠ 0) :
    acceptance_ratio nextDeg curDeg =
      some (min 1 ((nextDeg : ℚ) / (curDeg : ℚ))) := by
  simp [acceptance_ratio, h]

theorem mhStep_ne_divByZero (g : Graph) (cur : Nat) (sg : SGraph) (c : Nat) (u : ℚ) :
    mhStep g cur sg c u ≠ .divByZero := by
  unfold mhStep
  split
  · simp
  · rename_i hne
    have hdeg : g.degree cur ≠ 0 := by
      rw [Graph.degree]
      intro hlen
      rw [List.isEmpty_iff] at hne
      exact hne (List.eq_nil_of_length_eq_zero hlen)
    rw [acceptance_ratio_eq _ _ hdeg]
    split
    · rename_i heq
      exact absurd heq (by simp)
    · split <;> simp

theorem mhStep_reject (g : Graph) (cur : Nat) (sg : SGraph) (c : Nat) (u : ℚ)
    (hne : ¬ (g.neighbors cur).isEmpty) (r : ℚ)
    (hr : acceptance_ratio (g.degree (pickNeighbor g cur c)) (g.degree cur) = some r)
    (hrej : ¬ u < r) : mhStep g cur sg c u = .step cur (sg.addNode cur) := by
  unfold mhStep
  rw [if_neg hne, hr]
  exact if_neg hrej

theorem mhLoop_some_connected (g : Graph) (ns : Nat) (cs : Nat → Nat) (us : Nat → ℚ) :
    ∀ fuel cur sg t, cur ∈ sg.nodes → sg.Connected →
      ∃ sg2, mhLoop g ns cs us fuel cur sg t = some sg2 ∧
        sg.nodes ⊆ sg2.nodes ∧ sg2.Connected := by
  intro fuel
  induction fuel with
  | zero =>
    intro cur sg t hcur hconn
    exact ⟨sg, rfl, fun x hx => hx, hconn⟩
  | succ fuel ih =>
    intro cur sg t hcur hconn
    rw [mhLoop]
    by_cases hsz : sg.nodes.length < ns
    · rw [if_pos hsz]
      cases hstep : mhStep g cur sg (cs t) (us t) with
      | deadEnd => exact ⟨sg, rfl, fun x hx => hx, hconn⟩
      | divByZero => exact absurd hstep (mhStep_ne_divByZero g cur sg (cs t) (us t))
      | step cur1 sg1 =>
        have hinv : cur1 ∈ sg1.nodes ∧ sg.nodes ⊆ sg1.nodes ∧ sg1.Connected := by
          unfold mhStep at hstep
          split at hstep
          · exact absurd hstep (by simp)
          · split at hstep
            · exact absurd hstep (by simp)
            · split at hstep
              · injection hstep with h1 h2
                subst h1
                subst h2
                refine ⟨?_, ?_, ?_⟩
                · rw [SGraph.addEdge_nodes, SGraph.mem_addNode_iff]
                  exact Or.inr rfl
                · intro x hx
                  rw [SGraph.addEdge_nodes, SGraph.mem_addNode_iff,
                    SGraph.mem_addNode_iff, SGraph.mem_addNode_iff]
                  exact Or.inl (Or.inl (Or.inl hx))
                · exact SGraph.connected_addEdge hconn hcur _
              · injection hstep with h1 h2
                subst h1
                subst h2
                rw [SGraph.addNode_eq_of_mem hcur]
                exact ⟨hcur, fun x hx => hx, hconn⟩
        obtain ⟨h1, h2, h3⟩ := hinv
        obtain ⟨sg2, heq, hsub, hconn2⟩ := ih cur1 sg1 (t + 1) h1 h3
        exact ⟨sg2, heq, fun x hx => hsub (h2 hx), hconn2⟩
    · rw [if_neg hsz]
      exact ⟨sg, rfl, fun x hx => hx, hconn⟩

theorem SGraph.connected_single (n : Nat) : (SGraph.empty.addNode n).Connected := by
  intro u hu v hv
  have hn : (SGraph.empty.addNode n).nodes = [n] := by
    simp [SGraph.empty, SGraph.addNode]
  rw [hn, List.mem_singleton] at hu hv
  rw [hu, hv]
  exact Relation.ReflTransGen.refl

/-- C1: `metropolis_hastings_sampling` never advances the current node after
a rejected step (on rejection it only re-adds the current node, which is a
no-op when the node is already present), and it never divides by a zero
degree: every run completes without a division error, and whenever the
dead-end check leaves at least one neighbor the current degree is nonzero,
so the acceptance ratio is well defined; a rejected draw leaves the walk at
the same current node. -/
theorem mh_reject_safety (g : Graph) (start ns fuel : Nat) (cs : Nat → Nat)
    (us : Nat → ℚ) (cur : Nat) (sg : SGraph) (c : Nat) (u : ℚ)
    (hstart : start ∈ g.nodes) :
    (metropolis_hastings_sampling g start ns fuel cs us).isSome = true ∧
    mhStep g cur sg c u ≠ .divByZero ∧
    (¬ (g.neighbors cur).isEmpty →
      g.degree cur ≠ 0 ∧
      ∀ r, acceptance_ratio (g.degree (pickNeighbor g cur c)) (g.degree cur) = some r →
        ¬ u < r →
          mhStep g cur sg c u = .step cur (sg.addNode cur) ∧
          (cur ∈ sg.nodes → sg.addNode cur = sg)) := by
  refine ⟨?_, mhStep_ne_divByZero g cur sg c u, ?_⟩
  · obtain ⟨sg2, heq, _, _⟩ := mhLoop_some_connected g ns cs us fuel start
      (SGraph.empty.addNode start) 0 (SGraph.mem_addNode_self _ _)
      (SGraph.connected_single start)
    rw [metropolis_hastings_sampling, heq]
    rfl
  · intro hne
    have hdeg : g.degree cur ≠ 0 := by
      rw [Graph.degree]
      intro hlen
      rw [List.isEmpty_iff] at hne
      exact hne (List.eq_nil_of_length_eq_zero hlen)
    refine ⟨hdeg, fun r hr hrej => ?_⟩
    exact ⟨mhStep_reject g cur sg c u hne r hr hrej,
      fun hmem => SGraph.addNode_eq_of_mem hmem⟩

theorem mh_reject_safety_witness :
    (metropolis_hastings_sampling P5 1 3 10 (fun _ => 0) (fun _ => 1)).isSome = true ∧
    mhStep P5 2 SGraph.empty 0 1 = .step 2 (SGraph.empty.addNode 2) := by
  have h := mh_reject_safety P5 1 3 10 (fun _ => 0) (fun _ => 1) 2 SGraph.empty 0 1
    (by decide)
  refine ⟨h.1, ?_⟩
  have h2 := (h.2.2 (by decide)).2
    (min 1 ((P5.degree (pickNeighbor P5 2 0) : ℚ) / (P5.degree 2 : ℚ)))
    (acceptance_ratio_eq _ _ (by decide)) (not_lt.mpr (min_le_left _ _))
  exact h2.1

/-- C10: for every start node present in the graph and every target count,
zero included, `metropolis_hastings_sampling` returns a graph that contains
the start node, is nonempty, and is connected: the start node is added
before the loop and every added edge joins the accepted next node to a node
already in the sample. -/
theorem mh_start_connected (g : Graph) (start ns fuel : Nat) (cs : Nat → Nat)
    (us : Nat → ℚ) (hstart : start ∈ g.nodes) :
    ∃ sg, metropolis_hastings_sampling g start ns fuel cs us = some sg ∧
      start ∈ sg.nodes ∧ sg.nodes ≠ [] ∧ sg.Connected := by
  obtain ⟨sg, heq, hsub, hconn⟩ := mhLoop_some_connected g ns cs us fuel start
    (SGraph.empty.addNode start) 0 (SGraph.mem_addNode_self _ _)
    (SGraph.connected_single start)
  have hst : start ∈ sg.nodes := hsub (SGraph.mem_addNode_self _ _)
  refine ⟨sg, heq, hst, ?_, hconn⟩
  intro hnil
  rw [hnil] at hst
  exact absurd hst (List.not_mem_nil start)

theorem mh_start_connected_witness :
    ∃ sg, metropolis_hastings_sampling P5 3 0 4 (fun _ => 0) (fun _ => 0) = some sg ∧
      3 ∈ sg.nodes ∧ sg.nodes ≠ [] ∧ sg.Connected :=
  mh_start_connected P5 3 0 4 (fun _ => 0) (fun _ => 0) (by decide)

/-! ## Random walk sampling -/

/-- The `while` loop of `random_walk_sampling`: move to a uniformly chosen
neighbor every step; add node and edge only when the destination has not
been visited yet; stop at a dead end or when the target size is reached. -/
def rwLoop (g : Graph) (ns : Nat) (cs : Nat → Nat) :
    Nat → Nat → SGraph → List Nat → Nat → SGraph
  | 0, _, sg, _, _ => sg
  | fuel + 1, cur, sg, visited, t =>
    if sg.nodes.length < ns then
      if (g.neighbors cur).isEmpty then sg
      else
        if pickNeighbor g cur (cs t) ∈ visited then
          rwLoop g ns cs fuel (pickNeighbor g cur (cs t)) sg visited (t + 1)
        else
          rwLoop g ns cs fuel (pickNeighbor g cur (cs t))
            ((sg.addNode (pickNeighbor g cur (cs t))).addEdge cur
              (pickNeighbor g cur (cs t)))
            (visited ++ [pickNeighbor g cur (cs t)]) (t + 1)
    else sg

/-- `random_walk_sampling(start_node, num_samples)`. -/
def random_walk_sampling (g : Graph) (start ns fuel : Nat) (cs : Nat → Nat) : SGraph :=
  rwLoop g ns cs fuel start (SGraph.empty.addNode start) [start] 0

example : random_walk_sampling P5 1 3 5 (fun _ => 0) = ⟨[1, 2], [(1, 2)]⟩ := by decide

theorem SGraph.empty_addNode_nodes (n : Nat) : (SGraph.empty.addNode n).nodes = [n] := by
  simp [SGraph.empty, SGraph.addNode]

theorem SGraph.empty_addNode_edges (n : Nat) : (SGraph.empty.addNode n).edges = [] := by
  rw [SGraph.addNode_edges]
  rfl

theorem pickNeighbor_mem (g : Graph) (cur c : Nat) (h : ¬ (g.neighbors cur).isEmpty) :
    pickNeighbor g cur c ∈ g.neighbors cur := by
  rw [List.isEmpty_iff] at h
  have hl : 0 < (g.neighbors cur).length := List.length_pos.mpr h
  have hlt : c % (g.neighbors cur).length < (g.neighbors cur).length := Nat.mod_lt _ hl
  rw [pickNeighbor, List.getD_eq_getElem _ _ hlt]
  exact List.getElem_mem hlt

/-- When `v` is genuinely new and the edge list never mentions `v`,
adding the node `v` and then the edge `(u, v)` appends both literally. -/
theorem SGraph.addEdge_fresh {sg : SGraph} {u v : Nat}
    (hedg : ∀ e ∈ sg.edges, e.1 ≠ v ∧ e.2 ≠ v) (hu : u ∈ sg.nodes)
    (hv : v ∉ sg.nodes) :
    (sg.addNode v).addEdge u v = ⟨sg.nodes ++ [v], sg.edges ++ [(u, v)]⟩ := by
  have hX : sg.addNode v = ⟨sg.nodes ++ [v], sg.edges⟩ := by
    simp [SGraph.addNode, hv]
  have hu2 : u ∈ (sg.addNode v).nodes := sg.nodes_sub_addNode v hu
  have hv2 : v ∈ (sg.addNode v).nodes := sg.mem_addNode_self v
  have h1 : ((sg.addNode v).addNode u).addNode v = sg.addNode v := by
    rw [SGraph.addNode_eq_of_mem hu2, SGraph.addNode_eq_of_mem hv2]
  have hhe : ((sg.addNode v).hasEdge u v) = false := by
    rw [SGraph.hasEdge, List.any_eq_false]
    intro e he
    rw [hX] at he
    simp only [Bool.or_eq_true, Bool.and_eq_true, decide_eq_true_eq]
    push_neg
    constructor
    · intro _
      exact (hedg e he).2
    · intro h1v
      exact absurd h1v (hedg e he).1
  rw [SGraph.addEdge, h1, hhe]
  simp only [Bool.false_eq_true, if_false]
  rw [hX]

/-- The state invariant of the random walk: the sample is connected, has
fewer edges than nodes, every edge is a graph edge whose endpoints are
sampled, and edge destinations are pairwise distinct. -/
def RWInv (g : Graph) (sg : SGraph) : Prop :=
  sg.Connected ∧
  sg.edges.length + 1 ≤ sg.nodes.length ∧
  (∀ e ∈ sg.edges, e.2 ∈ g.neighbors e.1 ∧ e.1 ∈ sg.nodes ∧ e.2 ∈ sg.nodes) ∧
  (sg.edges.map Prod.snd).Nodup

theorem rwLoop_inv (g : Graph) (ns : Nat) (cs : Nat → Nat) :
    ∀ fuel cur sg visited t, cur ∈ sg.nodes →
      (∀ m, m ∈ visited ↔ m ∈ sg.nodes) → RWInv g sg →
      RWInv g (rwLoop g ns cs fuel cur sg visited t) ∧
      sg.nodes ⊆ (rwLoop g ns cs fuel cur sg visited t).nodes ∧
      (rwLoop g ns cs fuel cur sg visited t).nodes.length ≤ max ns sg.nodes.length := by
  intro fuel
  induction fuel with
  | zero =>
    intro cur sg visited t _ _ hinv
    exact ⟨hinv, fun x hx => hx, Nat.le_max_right _ _⟩
  | succ fuel ih =>
    intro cur sg visited t hcur hvis hinv
    rw [rwLoop]
    by_cases hsz : sg.nodes.length < ns
    · rw [if_pos hsz]
      by_cases hemp : (g.neighbors cur).isEmpty
      · rw [if_pos hemp]
        exact ⟨hinv, fun x hx => hx, Nat.le_max_right _ _⟩
      · rw [if_neg hemp]
        by_cases hmem : pickNeighbor g cur (cs t) ∈ visited
        · rw [if_pos hmem]
          exact ih (pickNeighbor g cur (cs t)) sg visited (t + 1)
            ((hvis _).mp hmem) hvis hinv
        · rw [if_neg hmem]
          obtain ⟨hconn, hcount, hedge, hnd⟩ := hinv
          have hnotin : pickNeighbor g cur (cs t) ∉ sg.nodes := by
            intro hc
            exact hmem ((hvis _).mpr hc)
          have hfresh : ∀ e ∈ sg.edges,
              e.1 ≠ pickNeighbor g cur (cs t) ∧ e.2 ≠ pickNeighbor g cur (cs t) := by
            intro e he
            obtain ⟨_, h1, h2⟩ := hedge e he
            constructor
            · intro hc
              exact hnotin (hc ▸ h1)
            · intro hc
              exact hnotin (hc ▸ h2)
          have heq : (sg.addNode (pickNeighbor g cur (cs t))).addEdge cur
              (pickNeighbor g cur (cs t)) =
              ⟨sg.nodes ++ [pickNeighbor g cur (cs t)],
               sg.edges ++ [(cur, pickNeighbor g cur (cs t))]⟩ :=
            SGraph.addEdge_fresh hfresh hcur hnotin
          have hconn1 : ((sg.addNode (pickNeighbor g cur (cs t))).addEdge cur
              (pickNeighbor g cur (cs t))).Connected :=
            SGraph.connected_addEdge hconn hcur _
          rw [heq] at hconn1
          have hinv1 : RWInv g ⟨sg.nodes ++ [pickNeighbor g cur (cs t)],
              sg.edges ++ [(cur, pickNeighbor g cur (cs t))]⟩ := by
            refine ⟨hconn1, ?_, ?_, ?_⟩
            · simp only [List.length_append, List.length_cons, List.length_nil]
              omega
            · intro e he
              rw [List.mem_append, List.mem_singleton] at he
              rcases he with he | he
              · obtain ⟨ha, hb, hc⟩ := hedge e he
                exact ⟨ha, List.mem_append_left _ hb, List.mem_append_left _ hc⟩
              · rw [he]
                refine ⟨pickNeighbor_mem g cur (cs t) hemp, ?_, ?_⟩
                · exact List.mem_append_left _ hcur
                · exact List.mem_append_right _ (List.mem_singleton.mpr rfl)
            · rw [List.map_append]
              rw [List.nodup_append]
              refine ⟨hnd, List.nodup_singleton _, ?_⟩
              intro a ha hb
              rw [List.map_singleton, List.mem_singleton] at hb
              rw [List.mem_map] at ha
              obtain ⟨e, he, hae⟩ := ha
              obtain ⟨_, _, h2⟩ := hedge e he
              rw [hae] at h2
              rw [hb] at h2
              exact hnotin h2
          have hcur1 : pickNeighbor g cur (cs t) ∈
              (⟨sg.nodes ++ [pickNeighbor g cur (cs t)],
                sg.edges ++ [(cur, pickNeighbor g cur (cs t))]⟩ : SGraph).nodes :=
            List.mem_append_right _ (List.mem_singleton.mpr rfl)
          have hvis1 : ∀ m, m ∈ visited ++ [pickNeighbor g cur (cs t)] ↔
              m ∈ (⟨sg.nodes ++ [pickNeighbor g cur (cs t)],
                sg.edges ++ [(cur, pickNeighbor g cur (cs t))]⟩ : SGraph).nodes := by
            intro m
            show m ∈ visited ++ [pickNeighbor g cur (cs t)] ↔
              m ∈ sg.nodes ++ [pickNeighbor g cur (cs t)]
            rw [List.mem_append, List.mem_append, hvis m]
          have hres := ih (pickNeighbor g cur (cs t))
            ⟨sg.nodes ++ [pickNeighbor g cur (cs t)],
             sg.edges ++ [(cur, pickNeighbor g cur (cs t))]⟩
            (visited ++ [pickNeighbor g cur (cs t)]) (t + 1) hcur1 hvis1 hinv1
          rw [heq]
          refine ⟨hres.1, ?_, ?_⟩
          · intro x hx
            exact hres.2.1 (List.mem_append_left _ hx)
          · have hlen : (sg.nodes ++ [pickNeighbor g cur (cs t)]).length =
                sg.nodes.length + 1 := by
              simp
            have := hres.2.2
            rw [hlen] at this
            omega
    · rw [if_neg hsz]
      exact ⟨hinv, fun x hx => hx, Nat.le_max_right _ _⟩

/-- C2: for every graph, start node present in it, and target sample size,
the graph returned by `random_walk_sampling` is connected and has at most
`sample_size - 1` edges; every edge is a graph edge from the node the walk
was at to its freshly visited destination, and the edge destinations are
pairwise distinct, since nodes and edges are added only the first time a
node is encountered as a destination. -/
theorem random_walk_spec (g : Graph) (start ns fuel : Nat) (cs : Nat → Nat)
    (hstart : start ∈ g.nodes) :
    (random_walk_sampling g start ns fuel cs).Connected ∧
    (random_walk_sampling g start ns fuel cs).edges.length ≤ ns - 1 ∧
    (∀ e ∈ (random_walk_sampling g start ns fuel cs).edges, e.2 ∈ g.neighbors e.1) ∧
    ((random_walk_sampling g start ns fuel cs).edges.map Prod.snd).Nodup := by
  simp only [random_walk_sampling]
  have hinit : RWInv g (SGraph.empty.addNode start) := by
    refine ⟨SGraph.connected_single start, ?_, ?_, ?_⟩
    · rw [SGraph.empty_addNode_nodes, SGraph.empty_addNode_edges]
      simp
    · rw [SGraph.empty_addNode_edges]
      intro e he
      exact absurd he (List.not_mem_nil e)
    · rw [SGraph.empty_addNode_edges]
      exact List.nodup_nil
  have hvis : ∀ m, m ∈ [start] ↔ m ∈ (SGraph.empty.addNode start).nodes := by
    intro m
    rw [SGraph.empty_addNode_nodes]
  have h := rwLoop_inv g ns cs fuel start (SGraph.empty.addNode start) [start] 0
    (SGraph.mem_addNode_self _ _) hvis hinit
  obtain ⟨⟨hconn, hcount, hedge, hnd⟩, _, hlen⟩ := h
  refine ⟨hconn, ?_, fun e he => (hedge e he).1, hnd⟩
  have h1 : (SGraph.empty.addNode start).nodes.length = 1 := by
    rw [SGraph.empty_addNode_nodes]
    rfl
  rw [h1] at hlen
  omega

theorem random_walk_spec_witness :
    (random_walk_sampling P5 1 3 5 (fun _ => 0)).Connected ∧
    (random_walk_sampling P5 1 3 5 (fun _ => 0)).edges.length ≤ 3 - 1 ∧
    (∀ e ∈ (random_walk_sampling P5 1 3 5 (fun _ => 0)).edges,
      e.2 ∈ P5.neighbors e.1) ∧
    ((random_walk_sampling P5 1 3 5 (fun _ => 0)).edges.map Prod.snd).Nodup :=
  random_walk_spec P5 1 3 5 (fun _ => 0) (by decide)

/-! ## Random node sampling -/

/-- `random_node_sampling(sample_size)`: `random.sample(list(G.nodes()), k)`
returns `k` distinct uniformly chosen nodes, i.e. the first `k` entries of
a permutation of the node list, and raises when `k` exceeds the population
size (reported as `InsufficientPopulation` in the design). -/
def random_node_sampling (g : Graph) (k : Nat) (sh : List Nat → List Nat) :
    Except SampleError (List Nat) :=
  if k ≤ g.nodes.length then Except.ok ((sh g.nodes).take k)
  else Except.error SampleError.insufficientPopulation

/-- C5: for every graph and every k, when k is at most the node count,
`random_node_sampling` returns exactly k distinct nodes of the graph;
when k exceeds the node count it fails with `InsufficientPopulation`. -/
theorem random_node_spec (g : Graph) (k : Nat) (sh : List Nat → List Nat)
    (hsh : List.Perm (sh g.nodes) g.nodes) (hnd : g.nodes.Nodup) :
    (k ≤ g.nodes.length →
      ∃ l, random_node_sampling g k sh = Except.ok l ∧
        l.length = k ∧ l.Nodup ∧ ∀ x ∈ l, x ∈ g.nodes) ∧
    (g.nodes.length < k →
      random_node_sampling g k sh = Except.error SampleError.insufficientPopulation) := by
  constructor
  · intro hk
    refine ⟨(sh g.nodes).take k, ?_, ?_, ?_, ?_⟩
    · rw [random_node_sampling, if_pos hk]
    · rw [List.length_take, hsh.length_eq]
      exact min_eq_left hk
    · exact List.Nodup.sublist (List.take_sublist _ _) (hsh.nodup_iff.mpr hnd)
    · intro x hx
      exact hsh.mem_iff.mp (List.take_subset _ _ hx)
  · intro hk
    rw [random_node_sampling, if_neg (by omega)]

theorem random_node_spec_witness :
    (∃ l, random_node_sampling P5 3 id = Except.ok l ∧ l.length = 3 ∧ l.Nodup ∧
      ∀ x ∈ l, x ∈ P5.nodes) ∧
    random_node_sampling P5 7 id = Except.error SampleError.insufficientPopulation := by
  have h1 := random_node_spec P5 3 id (List.Perm.refl _) (by decide)
  have h2 := random_node_spec P5 7 id (List.Perm.refl _) (by decide)
  exact ⟨h1.1 (by decide), h2.2 (by decide)⟩

/-! ## Degree-based node sampling -/

/-- `degree_based_node_sampling(sample_size)`: sort the nodes by degree in
descending order (a stable sort, as Python's `sorted`) and take the first
`k`. -/
def degree_based_node_sampling (g : Graph) (k : Nat) : List Nat :=
  (List.insertionSort (fun a b => g.degree b ≤ g.degree a) g.nodes).take k

/-- C6 as stated is false: it promises k returned nodes for every k, but
on a one-node graph with k = 2 the slice returns a single node. -/
theorem degree_based_counterexample :
    ¬ ((degree_based_node_sampling ⟨[1], []⟩ 2).length = 2) := by decide

/-- C6 amended: `degree_based_node_sampling` returns `min k |V|` nodes
whose degree sequence is non-increasing in returned order, and every node
of the graph left out of the result has degree at most the degree of every
returned node. -/
theorem degree_based_spec (g : Graph) (k : Nat) :
    (degree_based_node_sampling g k).length = min k g.nodes.length ∧
    (degree_based_node_sampling g k).Pairwise (fun a b => g.degree b ≤ g.degree a) ∧
    (∀ x ∈ g.nodes, x ∉ degree_based_node_sampling g k →
      ∀ y ∈ degree_based_node_sampling g k, g.degree x ≤ g.degree y) := by
  letI : IsTotal Nat (fun a b => g.degree b ≤ g.degree a) :=
    ⟨fun a b => Nat.le_total (g.degree b) (g.degree a)⟩
  letI : IsTrans Nat (fun a b => g.degree b ≤ g.degree a) :=
    ⟨fun _ _ _ hab hbc => le_trans hbc hab⟩
  have hsorted : List.Sorted (fun a b => g.degree b ≤ g.degree a)
      (List.insertionSort (fun a b => g.degree b ≤ g.degree a) g.nodes) :=
    List.sorted_insertionSort _ g.nodes
  refine ⟨?_, ?_, ?_⟩
  · rw [degree_based_node_sampling, List.length_take, List.length_insertionSort]
  · exact List.Pairwise.sublist (List.take_sublist _ _) hsorted
  · intro x hx hxout y hy
    have hxs : x ∈ List.insertionSort (fun a b => g.degree b ≤ g.degree a) g.nodes :=
      (List.mem_insertionSort _).mpr hx
    rw [← List.take_append_drop k
      (List.insertionSort (fun a b => g.degree b ≤ g.degree a) g.nodes)] at hxs
    rw [List.mem_append] at hxs
    have hxdrop : x ∈ (List.insertionSort (fun a b => g.degree b ≤ g.degree a)
        g.nodes).drop k := by
      rcases hxs with h | h
      · exact absurd h hxout
      · exact h
    have hpw := hsorted
    rw [List.Sorted, ← List.take_append_drop k
      (List.insertionSort (fun a b => g.degree b ≤ g.degree a) g.nodes),
      List.pairwise_append] at hpw
    exact hpw.2.2 y hy x hxdrop

/-! ## Random edge sampling -/

/-- `random_edge_sampling(sample_size)`: materialize the edge list, shuffle
it, return the first `k` (all edges when the graph has fewer than `k`). -/
def random_edge_sampling (g : Graph) (k : Nat)
    (sh : List (Nat × Nat) → List (Nat × Nat)) : List (Nat × Nat) :=
  (sh g.edges).take k

/-- C7: `random_edge_sampling` never fails; it returns the first k entries
of a shuffled copy of the full edge list, so every returned pair is an edge
of the graph, the returned edges are pairwise distinct, and the result
length is `min k |E|` (all edges when `|E| < k`). -/
theorem random_edge_spec (g : Graph) (k : Nat)
    (sh : List (Nat × Nat) → List (Nat × Nat))
    (hsh : List.Perm (sh g.edges) g.edges) (hnd : g.edges.Nodup) :
    (∀ e ∈ random_edge_sampling g k sh, e ∈ g.edges) ∧
    (random_edge_sampling g k sh).Nodup ∧
    (random_edge_sampling g k sh).length = min k g.edges.length := by
  refine ⟨?_, ?_, ?_⟩
  · intro e he
    exact hsh.mem_iff.mp (List.take_subset _ _ he)
  · exact List.Nodup.sublist (List.take_sublist _ _) (hsh.nodup_iff.mpr hnd)
  · rw [random_edge_sampling, List.length_take, hsh.length_eq]

theorem random_edge_spec_witness :
    ((∀ e ∈ random_edge_sampling P5 2 id, e ∈ P5.edges) ∧
      (random_edge_sampling P5 2 id).Nodup ∧
      (random_edge_sampling P5 2 id).length = min 2 P5.edges.length) ∧
    (random_edge_sampling P5 10 id).length = min 10 P5.edges.length := by
  have h1 := random_edge_spec P5 2 id (List.Perm.refl _) (by decide)
  have h2 := random_edge_spec P5 10 id (List.Perm.refl _) (by decide)
  exact ⟨h1, h2.2.2⟩

/-! ## Depth-first and breadth-first sampling -/

theorem List.mem_of_getLast?_eq {l : List Nat} {a : Nat} (h : l.getLast? = some a) :
    a ∈ l := by
  have hne : l ≠ [] := by
    intro hl
    rw [hl] at h
    simp at h
  rw [List.getLast?_eq_getLast l hne] at h
  injection h with h2
  rw [← h2]
  exact List.getLast_mem hne

/-- The `while stack and len(sampled_nodes) < sample_size` loop of
`depth_first_sampling`.  The Python list used as a stack appends and pops
at its end; visited nodes popped again are skipped; neighbors are pushed
in shuffled order while the sample is still under the target. -/
def dfsLoop (g : Graph) (ss : Nat) (sh : Nat → List Nat → List Nat) :
    Nat → List Nat → List Nat → Nat → List Nat
  | 0, sampled, _, _ => sampled
  | fuel + 1, sampled, stack, t =>
    if sampled.length < ss then
      match stack.getLast? with
      | none => sampled
      | some node =>
        if node ∈ sampled then dfsLoop g ss sh fuel sampled stack.dropLast (t + 1)
        else
          dfsLoop g ss sh fuel (sampled ++ [node])
            ((sh t (g.neighbors node)).foldl
              (fun st nb => if (sampled ++ [node]).length < ss then st ++ [nb] else st)
              stack.dropLast) (t + 1)
    else sampled

/-- `depth_first_sampling(initial_node, sample_size)`. -/
def depth_first_sampling (g : Graph) (init ss fuel : Nat)
    (sh : Nat → List Nat → List Nat) : List Nat :=
  dfsLoop g ss sh fuel [] [init] 0

/-- The inner `for neighbor in neighbors` loop of `breadth_first_sampling`:
admit each unvisited neighbor into the sample and the queue, stopping as
soon as the target size is reached. -/
def bfsAdd (ss : Nat) : List Nat → List Nat → List Nat → List Nat × List Nat
  | [], sampled, queue => (sampled, queue)
  | nb :: rest, sampled, queue =>
    if nb ∈ sampled then bfsAdd ss rest sampled queue
    else
      if ss ≤ (sampled ++ [nb]).length then (sampled ++ [nb], queue ++ [nb])
      else bfsAdd ss rest (sampled ++ [nb]) (queue ++ [nb])

/-- The `while queue and len(sampled_nodes) < sample_size` loop of
`breadth_first_sampling`. -/
def bfsLoop (g : Graph) (ss : Nat) (sh : Nat → List Nat → List Nat) :
    Nat → List Nat → List Nat → Nat → List Nat
  | 0, sampled, _, _ => sampled
  | fuel + 1, sampled, queue, t =>
    if sampled.length < ss then
      match queue with
      | [] => sampled
      | node :: rest =>
        bfsLoop g ss sh fuel (bfsAdd ss (sh t (g.neighbors node)) sampled rest).1
          (bfsAdd ss (sh t (g.neighbors node)) sampled rest).2 (t + 1)
    else sampled

/-- `breadth_first_sampling(initial_nodes, sample_size)`: the sampled set
starts as the set of initial nodes, the queue holds the initial list. -/
def breadth_first_sampling (g : Graph) (inits : List Nat) (ss fuel : Nat)
    (sh : Nat → List Nat → List Nat) : List Nat :=
  bfsLoop g ss sh fuel inits.dedup inits 0

example : depth_first_sampling P5 1 3 10 (fun _ l => l) = [1, 2, 3] := by decide
example : breadth_first_sampling P5 [1] 3 10 (fun _ l => l) = [1, 2, 3] := by decide

theorem mem_foldl_push (p : Prop) [Decidable p] :
    ∀ (L st : List Nat) (x : Nat),
      x ∈ L.foldl (fun st2 nb => if p then st2 ++ [nb] else st2) st →
      x ∈ st ∨ x ∈ L := by
  intro L
  induction L with
  | nil =>
    intro st x hx
    exact Or.inl hx
  | cons b bs ih =>
    intro st x hx
    simp only [List.foldl_cons] at hx
    by_cases hp : p
    · rw [if_pos hp] at hx
      rcases ih (st ++ [b]) x hx with h | h
      · rw [List.mem_append, List.mem_singleton] at h
        rcases h with h | h
        · exact Or.inl h
        · exact Or.inr (h ▸ List.mem_cons_self b bs)
      · exact Or.inr (List.mem_cons_of_mem _ h)
    · rw [if_neg hp] at hx
      rcases ih st x hx with h | h
      · exact Or.inl h
      · exact Or.inr (List.mem_cons_of_mem _ h)

theorem dfsLoop_inv (g : Graph) (ss : Nat) (sh : Nat → List Nat → List Nat)
    (hsh : ∀ t l, List.Perm (sh t l) l) (Q : Nat → Prop)
    (hQ : ∀ a b, Q a → b ∈ g.neighbors a → Q b) :
    ∀ fuel sampled stack t, (∀ x ∈ sampled, Q x) → (∀ x ∈ stack, Q x) →
      sampled.length ≤ ss →
      (∀ x ∈ dfsLoop g ss sh fuel sampled stack t, Q x) ∧
      (dfsLoop g ss sh fuel sampled stack t).length ≤ ss := by
  intro fuel
  induction fuel with
  | zero =>
    intro sampled stack t hs _ hlen
    exact ⟨hs, hlen⟩
  | succ fuel ih =>
    intro sampled stack t hs hst hlen
    rw [dfsLoop]
    by_cases hsz : sampled.length < ss
    · rw [if_pos hsz]
      split
      · exact ⟨hs, hlen⟩
      · rename_i node hl
        have hnode : Q node := hst node (List.mem_of_getLast?_eq hl)
        have hstack1 : ∀ x ∈ stack.dropLast, Q x :=
          fun x hx => hst x (List.dropLast_subset stack hx)
        by_cases hmem : node ∈ sampled
        · rw [if_pos hmem]
          exact ih sampled stack.dropLast (t + 1) hs hstack1 hlen
        · rw [if_neg hmem]
          have hs1 : ∀ x ∈ sampled ++ [node], Q x := by
            intro x hx
            rw [List.mem_append, List.mem_singleton] at hx
            rcases hx with hx | hx
            · exact hs x hx
            · exact hx ▸ hnode
          have hst1 : ∀ x ∈ (sh t (g.neighbors node)).foldl
              (fun st nb => if (sampled ++ [node]).length < ss then st ++ [nb] else st)
              stack.dropLast, Q x := by
            intro x hx
            rcases mem_foldl_push _ _ _ _ hx with h | h
            · exact hstack1 x h
            · exact hQ node x hnode (((hsh t (g.neighbors node)).mem_iff).mp h)
          have hlen1 : (sampled ++ [node]).length ≤ ss := by
            rw [List.length_append, List.length_singleton]
            omega
          exact ih (sampled ++ [node]) _ (t + 1) hs1 hst1 hlen1
    · rw [if_neg hsz]
      exact ⟨hs, hlen⟩

theorem bfsAdd_pred (ss : Nat) (Q : Nat → Prop) :
    ∀ (nbs sampled queue : List Nat), (∀ x ∈ nbs, Q x) → (∀ x ∈ sampled, Q x) →
      (∀ x ∈ queue, Q x) →
      (∀ x ∈ (bfsAdd ss nbs sampled queue).1, Q x) ∧
      (∀ x ∈ (bfsAdd ss nbs sampled queue).2, Q x) := by
  intro nbs
  induction nbs with
  | nil =>
    intro sampled queue _ hs hq
    exact ⟨hs, hq⟩
  | cons nb rest ih =>
    intro sampled queue hn hs hq
    have hnb : Q nb := hn nb (List.mem_cons_self nb rest)
    have hn1 : ∀ x ∈ rest, Q x := fun x hx => hn x (List.mem_cons_of_mem _ hx)
    have hs1 : ∀ x ∈ sampled ++ [nb], Q x := by
      intro x hx
      rw [List.mem_append, List.mem_singleton] at hx
      rcases hx with hx | hx
      · exact hs x hx
      · exact hx ▸ hnb
    have hq1 : ∀ x ∈ queue ++ [nb], Q x := by
      intro x hx
      rw [List.mem_append, List.mem_singleton] at hx
      rcases hx with hx | hx
      · exact hq x hx
      · exact hx ▸ hnb
    rw [bfsAdd]
    by_cases hmem : nb ∈ sampled
    · rw [if_pos hmem]
      exact ih sampled queue hn1 hs hq
    · rw [if_neg hmem]
      by_cases hfull : ss ≤ (sampled ++ [nb]).length
      · rw [if_pos hfull]
        exact ⟨hs1, hq1⟩
      · rw [if_neg hfull]
        exact ih (sampled ++ [nb]) (queue ++ [nb]) hn1 hs1 hq1

theorem bfsAdd_length (ss : Nat) :
    ∀ (nbs sampled queue : List Nat), sampled.length < ss →
      (bfsAdd ss nbs sampled queue).1.length ≤ ss := by
  intro nbs
  induction nbs with
  | nil =>
    intro sampled queue hlen
    exact le_of_lt hlen
  | cons nb rest ih =>
    intro sampled queue hlen
    rw [bfsAdd]
    by_cases hmem : nb ∈ sampled
    · rw [if_pos hmem]
      exact ih sampled queue hlen
    · rw [if_neg hmem]
      by_cases hfull : ss ≤ (sampled ++ [nb]).length
      · rw [if_pos hfull]
        rw [List.length_append, List.length_singleton]
        omega
      · rw [if_neg hfull]
        refine ih (sampled ++ [nb]) (queue ++ [nb]) ?_
        rw [List.length_append, List.length_singleton]
        rw [List.length_append, List.length_singleton] at hfull
        omega

theorem bfsLoop_inv (g : Graph) (ss : Nat) (sh : Nat → List Nat → List Nat)
    (hsh : ∀ t l, List.Perm (sh t l) l) (Q : Nat → Prop)
    (hQ : ∀ a b, Q a → b ∈ g.neighbors a → Q b) (M : Nat) (hM : ss ≤ M) :
    ∀ fuel sampled queue t, (∀ x ∈ sampled, Q x) → (∀ x ∈ queue, Q x) →
      sampled.length ≤ M →
      (∀ x ∈ bfsLoop g ss sh fuel sampled queue t, Q x) ∧
      (bfsLoop g ss sh fuel sampled queue t).length ≤ M := by
  intro fuel
  induction fuel with
  | zero =>
    intro sampled queue t hs _ hlen
    exact ⟨hs, hlen⟩
  | succ fuel ih =>
    intro sampled queue t hs hq hlen
    cases queue with
    | nil =>
      rw [bfsLoop]
      split <;> exact ⟨hs, hlen⟩
    | cons node rest =>
      rw [bfsLoop]
      by_cases hsz : sampled.length < ss
      · rw [if_pos hsz]
        have hnode : Q node := hq node (List.mem_cons_self node rest)
        have hrest : ∀ x ∈ rest, Q x := fun x hx => hq x (List.mem_cons_of_mem _ hx)
        have hnbs : ∀ x ∈ sh t (g.neighbors node), Q x := by
          intro x hx
          exact hQ node x hnode (((hsh t (g.neighbors node)).mem_iff).mp hx)
        have hpred := bfsAdd_pred ss Q (sh t (g.neighbors node)) sampled rest
          hnbs hs hrest
        have hlen1 : (bfsAdd ss (sh t (g.neighbors node)) sampled rest).1.length ≤ M :=
          le_trans (bfsAdd_length ss _ sampled rest hsz) hM
        exact ih _ _ (t + 1) hpred.1 hpred.2 hlen1
      · rw [if_neg hsz]
        exact ⟨hs, hlen⟩

/-- C3 as stated is false for `breadth_first_sampling`: the sampled set is
seeded with all the initial nodes, so when they outnumber the requested
sample size the result exceeds it.  On the edgeless graph with nodes 1 and
2, initial nodes [1, 2] and sample size 1, two nodes are returned. -/
theorem bfs_size_counterexample :
    ¬ ((breadth_first_sampling ⟨[1, 2], []⟩ [1, 2] 1 5 (fun _ l => l)).length ≤ 1) := by
  decide

/-- C3 amended: `depth_first_sampling` returns at most the requested
number of nodes, `breadth_first_sampling` returns at most the maximum of
the requested size and the number of distinct initial nodes (it can exceed
the request only because the seeded initial set is returned whole), and
every returned node is reachable in the graph from the initial node
(DFS) or from some initial node (BFS). -/
theorem dfs_bfs_spec (g : Graph) (init : Nat) (inits : List Nat) (ss fuel : Nat)
    (sh : Nat → List Nat → List Nat) (hsh : ∀ t l, List.Perm (sh t l) l) :
    ((depth_first_sampling g init ss fuel sh).length ≤ ss ∧
      ∀ x ∈ depth_first_sampling g init ss fuel sh, g.Reaches init x) ∧
    ((breadth_first_sampling g inits ss fuel sh).length ≤ max ss inits.dedup.length ∧
      ∀ x ∈ breadth_first_sampling g inits ss fuel sh,
        ∃ i ∈ inits, g.Reaches i x) := by
  constructor
  · have h := dfsLoop_inv g ss sh hsh (g.Reaches init)
      (fun a b ha hb => Relation.ReflTransGen.tail ha hb) fuel [] [init] 0
      (fun x hx => absurd hx (List.not_mem_nil x))
      (fun x hx => by
        rw [List.mem_singleton] at hx
        rw [hx]
        exact Relation.ReflTransGen.refl)
      (Nat.zero_le ss)
    exact ⟨h.2, h.1⟩
  · have h := bfsLoop_inv g ss sh hsh (fun x => ∃ i ∈ inits, g.Reaches i x)
      (fun a b ha hb => by
        obtain ⟨i, hi, hr⟩ := ha
        exact ⟨i, hi, Relation.ReflTransGen.tail hr hb⟩)
      (max ss inits.dedup.length) (Nat.le_max_left _ _) fuel inits.dedup inits 0
      (fun x hx => ⟨x, List.mem_dedup.mp hx, Relation.ReflTransGen.refl⟩)
      (fun x hx => ⟨x, hx, Relation.ReflTransGen.refl⟩)
      (Nat.le_max_right _ _)
    exact ⟨h.2, h.1⟩

theorem dfs_bfs_spec_witness :
    ((depth_first_sampling P5 1 3 10 (fun _ l => l)).length ≤ 3 ∧
      ∀ x ∈ depth_first_sampling P5 1 3 10 (fun _ l => l), P5.Reaches 1 x) ∧
    ((breadth_first_sampling P5 [1] 3 10 (fun _ l => l)).length ≤
        max 3 ([1] : List Nat).dedup.length ∧
      ∀ x ∈ breadth_first_sampling P5 [1] 3 10 (fun _ l => l),
        ∃ i ∈ ([1] : List Nat), P5.Reaches i x) :=
  dfs_bfs_spec P5 1 [1] 3 10 (fun _ l => l) (fun _ l => List.Perm.refl l)

/-! ## Snowball sampling -/

/-- The inner `for neighbor in neighbors` loop of `snowball_sampling`:
admit unsampled neighbors into the sampled set and the next frontier while
the sampled set is below the target; `break` once the target is reached. -/
def snowAdd (ss : Nat) : List Nat → List Nat → List Nat → List Nat × List Nat
  | [], sampled, nextE => (sampled, nextE)
  | nb :: rest, sampled, nextE =>
    if sampled.length < ss then
      if nb ∈ sampled then snowAdd ss rest sampled nextE
      else snowAdd ss rest (sampled ++ [nb]) (nextE ++ [nb])
    else (sampled, nextE)

/-- One round of `snowball_sampling`: expand every node of the current
frontier in turn, collecting the newly admitted nodes as the next
frontier. -/
def snowRound (g : Graph) (ss : Nat) (sh : Nat → List Nat → List Nat) :
    List Nat → Nat → List Nat → List Nat → List Nat × List Nat
  | [], _, sampled, nextE => (sampled, nextE)
  | node :: rest, t, sampled, nextE =>
    snowRound g ss sh rest (t + 1)
      (snowAdd ss (sh t (g.neighbors node)) sampled nextE).1
      (snowAdd ss (sh t (g.neighbors node)) sampled nextE).2

/-- The `for _ in range(expand_depth)` loop of `snowball_sampling`, with
the early `break` once the sampled set has reached the target size. -/
def snowLoop (g : Graph) (ss : Nat) (sh : Nat → List Nat → List Nat) :
    Nat → Nat → List Nat → List Nat → List Nat
  | 0, _, sampled, _ => sampled
  | d + 1, t, sampled, toExpand =>
    if ss ≤ (snowRound g ss sh toExpand t sampled []).1.length then
      (snowRound g ss sh toExpand t sampled []).1
    else
      snowLoop g ss sh d (t + toExpand.length)
        (snowRound g ss sh toExpand t sampled []).1
        (snowRound g ss sh toExpand t sampled []).2

/-- `snowball_sampling(initial_nodes, sample_size, expand_depth)`: the
sampled set and the first frontier both start as the set of initial
nodes. -/
def snowball_sampling (g : Graph) (inits : List Nat) (ss depth : Nat)
    (sh : Nat → List Nat → List Nat) : List Nat :=
  snowLoop g ss sh depth 0 inits.dedup inits.dedup

example : snowball_sampling P5 [3] 5 1 (fun _ l => l) = [3, 2, 4] := by decide
example : snowball_sampling P5 [3] 5 2 (fun _ l => l) = [3, 2, 4, 1, 5] := by decide

theorem snowAdd_delta (ss : Nat) :
    ∀ (nbs sampled nextE : List Nat),
      ∃ d, (snowAdd ss nbs sampled nextE).1 = sampled ++ d ∧
        (snowAdd ss nbs sampled nextE).2 = nextE ++ d ∧ ∀ x ∈ d, x ∈ nbs := by
  intro nbs
  induction nbs with
  | nil =>
    intro s n
    exact ⟨[], by simp [snowAdd], by simp [snowAdd], by simp⟩
  | cons nb rest ih =>
    intro s n
    rw [snowAdd]
    by_cases h1 : s.length < ss
    · rw [if_pos h1]
      by_cases h2 : nb ∈ s
      · rw [if_pos h2]
        obtain ⟨d, hd1, hd2, hd3⟩ := ih s n
        exact ⟨d, hd1, hd2, fun x hx => List.mem_cons_of_mem _ (hd3 x hx)⟩
      · rw [if_neg h2]
        obtain ⟨d, hd1, hd2, hd3⟩ := ih (s ++ [nb]) (n ++ [nb])
        refine ⟨nb :: d, ?_, ?_, ?_⟩
        · rw [hd1, List.append_assoc]
          rfl
        · rw [hd2, List.append_assoc]
          rfl
        · intro x hx
          rcases List.mem_cons.mp hx with hx | hx
          · exact hx ▸ List.mem_cons_self nb rest
          · exact List.mem_cons_of_mem _ (hd3 x hx)
    · rw [if_neg h1]
      exact ⟨[], by simp, by simp, by simp⟩

theorem snowAdd_length (ss : Nat) :
    ∀ (nbs sampled nextE : List Nat),
      (snowAdd ss nbs sampled nextE).1.length ≤ max ss sampled.length := by
  intro nbs
  induction nbs with
  | nil =>
    intro s n
    exact Nat.le_max_right _ _
  | cons nb rest ih =>
    intro s n
    rw [snowAdd]
    by_cases h1 : s.length < ss
    · rw [if_pos h1]
      by_cases h2 : nb ∈ s
      · rw [if_pos h2]
        exact ih s n
      · rw [if_neg h2]
        have h3 : (s ++ [nb]).length ≤ ss := by
          rw [List.length_append, List.length_singleton]
          omega
        exact le_trans (ih (s ++ [nb]) (n ++ [nb]))
          (max_le (Nat.le_max_left _ _) (le_trans h3 (Nat.le_max_left _ _)))
    · rw [if_neg h1]
      exact Nat.le_max_right _ _

theorem snowRound_delta (g : Graph) (ss : Nat) (sh : Nat → List Nat → List Nat)
    (hsh : ∀ t l, List.Perm (sh t l) l) :
    ∀ (toExpand : List Nat) (t : Nat) (sampled nextE : List Nat),
      ∃ d, (snowRound g ss sh toExpand t sampled nextE).1 = sampled ++ d ∧
        (snowRound g ss sh toExpand t sampled nextE).2 = nextE ++ d ∧
        ∀ x ∈ d, ∃ y ∈ toExpand, x ∈ g.neighbors y := by
  intro toExpand
  induction toExpand with
  | nil =>
    intro t s n
    exact ⟨[], by simp [snowRound], by simp [snowRound], by simp⟩
  | cons node rest ih =>
    intro t s n
    rw [snowRound]
    obtain ⟨d1, h11, h12, h13⟩ := snowAdd_delta ss (sh t (g.neighbors node)) s n
    obtain ⟨d2, h21, h22, h23⟩ := ih (t + 1)
      (snowAdd ss (sh t (g.neighbors node)) s n).1
      (snowAdd ss (sh t (g.neighbors node)) s n).2
    refine ⟨d1 ++ d2, ?_, ?_, ?_⟩
    · rw [h21, h11, List.append_assoc]
    · rw [h22, h12, List.append_assoc]
    · intro x hx
      rcases List.mem_append.mp hx with hx | hx
      · exact ⟨node, List.mem_cons_self node rest,
          ((hsh t (g.neighbors node)).mem_iff).mp (h13 x hx)⟩
      · obtain ⟨y, hy, hxy⟩ := h23 x hx
        exact ⟨y, List.mem_cons_of_mem _ hy, hxy⟩

theorem snowRound_length (g : Graph) (ss : Nat) (sh : Nat → List Nat → List Nat) :
    ∀ (toExpand : List Nat) (t : Nat) (sampled nextE : List Nat),
      (snowRound g ss sh toExpand t sampled nextE).1.length ≤ max ss sampled.length := by
  intro toExpand
  induction toExpand with
  | nil =>
    intro t s n
    exact Nat.le_max_right _ _
  | cons node rest ih =>
    intro t s n
    rw [snowRound]
    have h1 := snowAdd_length ss (sh t (g.neighbors node)) s n
    have h2 := ih (t + 1) (snowAdd ss (sh t (g.neighbors node)) s n).1
      (snowAdd ss (sh t (g.neighbors node)) s n).2
    exact le_trans h2 (max_le (Nat.le_max_left _ _) h1)

theorem snowLoop_length (g : Graph) (ss : Nat) (sh : Nat → List Nat → List Nat) :
    ∀ (depth t : Nat) (sampled toExpand : List Nat),
      (snowLoop g ss sh depth t sampled toExpand).length ≤ max ss sampled.length := by
  intro depth
  induction depth with
  | zero =>
    intro t s te
    exact Nat.le_max_right _ _
  | succ d ih =>
    intro t s te
    rw [snowLoop]
    by_cases h : ss ≤ (snowRound g ss sh te t s []).1.length
    · rw [if_pos h]
      exact snowRound_length g ss sh te t s []
    · rw [if_neg h]
      exact le_trans (ih (t + te.length) _ _)
        (max_le (Nat.le_max_left _ _) (snowRound_length g ss sh te t s []))

/-- C4 as stated is false in its size clause: the sampled set is seeded
with all the initial nodes before any admission check, so when the
distinct initial nodes outnumber the target the result exceeds it.  On
the edgeless graph with nodes 1 and 2, initial nodes [1, 2], target 1 and
depth 1, two nodes are returned. -/
theorem snowball_size_counterexample :
    ¬ ((snowball_sampling ⟨[1, 2], []⟩ [1, 2] 1 1 (fun _ l => l)).length ≤ 1) := by
  decide

/-- C4 amended: at every round, `snowball_sampling` admits exactly the
nodes of the round's next frontier, each a neighbor of some node of the
current frontier (for the first round, of an initial node, the first
frontier being the initial set); the result size never exceeds the
maximum of the target sample size and the number of distinct initial
nodes (it can exceed the target only because the seeded initial set is
returned whole). -/
theorem snowball_spec (g : Graph) (inits : List Nat) (ss depth : Nat)
    (sh : Nat → List Nat → List Nat) (hsh : ∀ t l, List.Perm (sh t l) l) :
    (∀ (toExpand : List Nat) (t : Nat) (sampled : List Nat),
      ∃ d, (snowRound g ss sh toExpand t sampled []).1 = sampled ++ d ∧
        (snowRound g ss sh toExpand t sampled []).2 = d ∧
        ∀ x ∈ d, ∃ y ∈ toExpand, x ∈ g.neighbors y) ∧
    (snowball_sampling g inits ss depth sh).length ≤ max ss inits.dedup.length := by
  constructor
  · intro toExpand t sampled
    obtain ⟨d, h1, h2, h3⟩ := snowRound_delta g ss sh hsh toExpand t sampled []
    exact ⟨d, h1, h2.trans (List.nil_append d), h3⟩
  · have h := snowLoop_length g ss sh depth 0 inits.dedup inits.dedup
    rw [snowball_sampling]
    exact h

theorem snowball_spec_witness :
    (∃ d, (snowRound P5 3 (fun _ l => l) [1] 0 [1] []).1 = [1] ++ d ∧
      (snowRound P5 3 (fun _ l => l) [1] 0 [1] []).2 = d ∧
      ∀ x ∈ d, ∃ y ∈ ([1] : List Nat), x ∈ P5.neighbors y) ∧
    (snowball_sampling P5 [1] 3 2 (fun _ l => l)).length ≤
      max 3 ([1] : List Nat).dedup.length := by
  have h := snowball_spec P5 [1] 3 2 (fun _ l => l) (fun _ l => List.Perm.refl l)
  exact ⟨h.1 [1] 0 [1], h.2⟩

/-! ## Induced edge sampling -/

/-- The inner `for neighbor in neighbors` loop of `induced_edge_sampling`:
emit `(node, neighbor)` pairs while under the quota; the boolean records
the early `return` taken once the quota is full. -/
def iesInner (k : Nat) (node : Nat) :
    List Nat → List (Nat × Nat) → List (Nat × Nat) × Bool
  | [], acc => (acc, false)
  | nb :: rest, acc =>
    if acc.length < k then iesInner k node rest (acc ++ [(node, nb)])
    else (acc, true)

/-- The outer `for node in nodes` loop of `induced_edge_sampling`. -/
def iesOuter (g : Graph) (k : Nat) (sh : Nat → List Nat → List Nat) :
    List Nat → Nat → List (Nat × Nat) → List (Nat × Nat)
  | [], _, acc => acc
  | node :: rest, t, acc =>
    if (iesInner k node (sh t (g.neighbors node)) acc).2 then
      (iesInner k node (sh t (g.neighbors node)) acc).1
    else iesOuter g k sh rest (t + 1) (iesInner k node (sh t (g.neighbors node)) acc).1

/-- `induced_edge_sampling(sample_size)`: iterate the shuffled node list;
for each node, emit pairs from its shuffled adjacency list, with no
deduplication across the two endpoints of an undirected edge. -/
def induced_edge_sampling (g : Graph) (k : Nat) (shN : List Nat → List Nat)
    (sh : Nat → List Nat → List Nat) : List (Nat × Nat) :=
  iesOuter g k sh (shN g.nodes) 0 []

example : induced_edge_sampling P5 10 id (fun _ l => l) =
    [(1, 2), (2, 1), (2, 3), (3, 2), (3, 4), (4, 3), (4, 5), (5, 4)] := by decide
example : induced_edge_sampling P5 3 id (fun _ l => l) = [(1, 2), (2, 1), (2, 3)] := by
  decide

theorem iesInner_mem (k node : Nat) :
    ∀ (nbs : List Nat) (acc : List (Nat × Nat)),
      ∀ p ∈ (iesInner k node nbs acc).1, p ∈ acc ∨ (p.1 = node ∧ p.2 ∈ nbs) := by
  intro nbs
  induction nbs with
  | nil =>
    intro acc p hp
    exact Or.inl hp
  | cons nb rest ih =>
    intro acc p hp
    rw [iesInner] at hp
    by_cases h1 : acc.length < k
    · rw [if_pos h1] at hp
      rcases ih (acc ++ [(node, nb)]) p hp with h | h
      · rw [List.mem_append, List.mem_singleton] at h
        rcases h with h | h
        · exact Or.inl h
        · refine Or.inr ⟨?_, ?_⟩
          · rw [h]
          · rw [h]
            exact List.mem_cons_self nb rest
      · exact Or.inr ⟨h.1, List.mem_cons_of_mem _ h.2⟩
    · rw [if_neg h1] at hp
      exact Or.inl hp

theorem iesInner_len_le (k node : Nat) :
    ∀ (nbs : List Nat) (acc : List (Nat × Nat)), acc.length ≤ k →
      (iesInner k node nbs acc).1.length ≤ k := by
  intro nbs
  induction nbs with
  | nil =>
    intro acc h
    exact h
  | cons nb rest ih =>
    intro acc h
    rw [iesInner]
    by_cases h1 : acc.length < k
    · rw [if_pos h1]
      refine ih (acc ++ [(node, nb)]) ?_
      rw [List.length_append, List.length_singleton]
      omega
    · rw [if_neg h1]
      exact h

theorem iesInner_len_add (k node : Nat) :
    ∀ (nbs : List Nat) (acc : List (Nat × Nat)),
      (iesInner k node nbs acc).1.length ≤ acc.length + nbs.length := by
  intro nbs
  induction nbs with
  | nil =>
    intro acc
    simp [iesInner]
  | cons nb rest ih =>
    intro acc
    rw [iesInner]
    by_cases h1 : acc.length < k
    · rw [if_pos h1]
      have := ih (acc ++ [(node, nb)])
      rw [List.length_append, List.length_singleton] at this
      rw [List.length_cons]
      omega
    · rw [if_neg h1]
      show acc.length ≤ acc.length + (nb :: rest).length
      omega

theorem iesOuter_mem (g : Graph) (k : Nat) (sh : Nat → List Nat → List Nat)
    (hsh : ∀ t l, List.Perm (sh t l) l) :
    ∀ (L : List Nat) (t : Nat) (acc : List (Nat × Nat)),
      (∀ p ∈ acc, p.2 ∈ g.neighbors p.1) →
      ∀ p ∈ iesOuter g k sh L t acc, p.2 ∈ g.neighbors p.1 := by
  intro L
  induction L with
  | nil =>
    intro t acc hacc p hp
    exact hacc p hp
  | cons node rest ih =>
    intro t acc hacc p hp
    have hstep : ∀ q ∈ (iesInner k node (sh t (g.neighbors node)) acc).1,
        q.2 ∈ g.neighbors q.1 := by
      intro q hq
      rcases iesInner_mem k node (sh t (g.neighbors node)) acc q hq with h | h
      · exact hacc q h
      · rw [h.1]
        exact ((hsh t (g.neighbors node)).mem_iff).mp h.2
    rw [iesOuter] at hp
    by_cases hstop : (iesInner k node (sh t (g.neighbors node)) acc).2
    · rw [if_pos hstop] at hp
      exact hstep p hp
    · rw [if_neg hstop] at hp
      exact ih (t + 1) _ hstep p hp

theorem iesOuter_len_le (g : Graph) (k : Nat) (sh : Nat → List Nat → List Nat) :
    ∀ (L : List Nat) (t : Nat) (acc : List (Nat × Nat)), acc.length ≤ k →
      (iesOuter g k sh L t acc).length ≤ k := by
  intro L
  induction L with
  | nil =>
    intro t acc h
    exact h
  | cons node rest ih =>
    intro t acc h
    rw [iesOuter]
    have hin := iesInner_len_le k node (sh t (g.neighbors node)) acc h
    by_cases hstop : (iesInner k node (sh t (g.neighbors node)) acc).2
    · rw [if_pos hstop]
      exact hin
    · rw [if_neg hstop]
      exact ih (t + 1) _ hin

/-- The total number of adjacency entries over a list of nodes. -/
def nbrSum (g : Graph) (L : List Nat) : Nat :=
  (L.map (fun n => (g.neighbors n).length)).sum

theorem iesOuter_len_sum (g : Graph) (k : Nat) (sh : Nat → List Nat → List Nat)
    (hsh : ∀ t l, List.Perm (sh t l) l) :
    ∀ (L : List Nat) (t : Nat) (acc : List (Nat × Nat)),
      (iesOuter g k sh L t acc).length ≤ acc.length + nbrSum g L := by
  intro L
  induction L with
  | nil =>
    intro t acc
    simp [iesOuter, nbrSum]
  | cons node rest ih =>
    intro t acc
    have hsum : nbrSum g (node :: rest) = (g.neighbors node).length + nbrSum g rest := by
      rw [nbrSum, List.map_cons, List.sum_cons, nbrSum]
    have hin := iesInner_len_add k node (sh t (g.neighbors node)) acc
    rw [(hsh t (g.neighbors node)).length_eq] at hin
    rw [iesOuter]
    by_cases hstop : (iesInner k node (sh t (g.neighbors node)) acc).2
    · rw [if_pos hstop, hsum]
      omega
    · rw [if_neg hstop, hsum]
      have := ih (t + 1) (iesInner k node (sh t (g.neighbors node)) acc).1
      omega

theorem sum_map_add_nat (f h : Nat → Nat) : ∀ L : List Nat,
    (L.map (fun n => f n + h n)).sum = (L.map f).sum + (L.map h).sum := by
  intro L
  induction L with
  | nil => simp
  | cons a L ih =>
    rw [List.map_cons, List.sum_cons, ih, List.map_cons, List.sum_cons,
      List.map_cons, List.sum_cons]
    omega

theorem single_indicator_le (a : Nat) : ∀ L : List Nat, L.Nodup →
    (L.map (fun n => if a = n then 1 else 0)).sum ≤ 1 := by
  intro L
  induction L with
  | nil =>
    intro _
    simp
  | cons b L ih =>
    intro hnd
    rcases List.nodup_cons.mp hnd with ⟨hb, hnd2⟩
    rw [List.map_cons, List.sum_cons]
    by_cases hab : a = b
    · rw [if_pos hab]
      have hz : (L.map (fun n => if a = n then 1 else 0)).sum = 0 := by
        rw [List.sum_eq_zero]
        intro x hx
        rw [List.mem_map] at hx
        obtain ⟨n, hn, hxn⟩ := hx
        have hne : a ≠ n := by
          intro h
          rw [hab] at h
          exact hb (h ▸ hn)
        rw [← hxn, if_neg hne]
      omega
    · rw [if_neg hab]
      have := ih hnd2
      omega

theorem pair_indicator_le (e : Nat × Nat) (L : List Nat) (h : L.Nodup) :
    (L.map (fun n => if e.1 = n ∨ e.2 = n then 1 else 0)).sum ≤ 2 := by
  have h1 := single_indicator_le e.1 L h
  have h2 := single_indicator_le e.2 L h
  have hle : (L.map (fun n => if e.1 = n ∨ e.2 = n then 1 else 0)).sum ≤
      (L.map (fun n => (if e.1 = n then 1 else 0) + (if e.2 = n then 1 else 0))).sum := by
    apply List.sum_le_sum
    intro n _
    by_cases ha : e.1 = n
    · simp [ha]
    · by_cases hb : e.2 = n <;> simp [ha, hb]
  rw [sum_map_add_nat] at hle
  omega

theorem nbrSum_list_le (L : List Nat) (hL : L.Nodup) :
    ∀ E : List (Nat × Nat),
      (L.map (fun n => (E.filterMap (fun e =>
        if e.1 = n then some e.2 else if e.2 = n then some e.1 else none)).length)).sum
        ≤ 2 * E.length := by
  intro E
  induction E with
  | nil => simp
  | cons e E ih =>
    have hpt : ∀ n ∈ L, ((e :: E).filterMap (fun e2 =>
        if e2.1 = n then some e2.2 else if e2.2 = n then some e2.1 else none)).length =
        (if e.1 = n ∨ e.2 = n then 1 else 0) +
        (E.filterMap (fun e2 =>
          if e2.1 = n then some e2.2 else if e2.2 = n then some e2.1 else none)).length := by
      intro n _
      rw [List.filterMap_cons]
      by_cases h1 : e.1 = n
      · simp [h1]
        omega
      · by_cases h2 : e.2 = n
        · simp [h1, h2]
          omega
        · simp [h1, h2]
    rw [List.map_congr_left hpt, sum_map_add_nat]
    have hp := pair_indicator_le e L hL
    rw [List.length_cons]
    omega

theorem nbrSum_le (g : Graph) (hnd : g.nodes.Nodup) :
    nbrSum g g.nodes ≤ 2 * g.edges.length :=
  nbrSum_list_le g.nodes hnd g.edges

/-- C8: every pair returned by `induced_edge_sampling` is an oriented
adjacency of the graph, the result length is at most `min k (2|E|)`
(each undirected edge can contribute once per endpoint), and an
undirected edge can indeed appear twice, once as `(u, v)` and once as
`(v, u)`, as the single-edge graph shows. -/
theorem induced_edge_spec (g : Graph) (k : Nat) (shN : List Nat → List Nat)
    (sh : Nat → List Nat → List Nat) (hshN : List.Perm (shN g.nodes) g.nodes)
    (hsh : ∀ t l, List.Perm (sh t l) l) (hnd : g.nodes.Nodup) :
    (∀ p ∈ induced_edge_sampling g k shN sh, p.2 ∈ g.neighbors p.1) ∧
    (induced_edge_sampling g k shN sh).length ≤ min k (2 * g.edges.length) ∧
    induced_edge_sampling ⟨[1, 2], [(1, 2)]⟩ 2 id (fun _ l => l) = [(1, 2), (2, 1)] := by
  refine ⟨?_, ?_, by decide⟩
  · exact iesOuter_mem g k sh hsh (shN g.nodes) 0 []
      (fun p hp => absurd hp (List.not_mem_nil p))
  · rw [induced_edge_sampling]
    refine le_min ?_ ?_
    · exact iesOuter_len_le g k sh (shN g.nodes) 0 [] (Nat.zero_le k)
    · refine le_trans (iesOuter_len_sum g k sh hsh (shN g.nodes) 0 []) ?_
      have hperm : nbrSum g (shN g.nodes) = nbrSum g g.nodes := by
        rw [nbrSum, nbrSum]
        exact List.Perm.sum_eq (hshN.map _)
      rw [List.length_nil, Nat.zero_add, hperm]
      exact nbrSum_le g hnd

theorem induced_edge_spec_witness :
    (∀ p ∈ induced_edge_sampling P5 10 id (fun _ l => l), p.2 ∈ P5.neighbors p.1) ∧
    (induced_edge_sampling P5 10 id (fun _ l => l)).length ≤
      min 10 (2 * P5.edges.length) := by
  have h := induced_edge_spec P5 10 id (fun _ l => l) (List.Perm.refl _)
    (fun _ l => List.Perm.refl l) (by decide)
  exact ⟨h.1, h.2.1⟩
